import Mathlib

/-!
# Verification of `king_backpack_hedge`

A shallow embedding, in Lean 4, of the pure computational core of the
`king_backpack_hedge` trading bot (Python), together with theorems that
check the repository's natural-language specification against the code.

Embedding conventions:

* Python strings are modelled as `PyString := List ℕ` (lists of character
  codes); `str.upper()` on the ASCII range is `pyUpper`, `s.split('_')[0]`
  is `pySplitHead 95` (95 is `'_'`), `s.find(pat) >= 0` is `containsSub`,
  and `s.replace(pat, rep)` (all non-overlapping occurrences, scanned left
  to right, no rescan of the replacement) is `pyReplace`.
* `Decimal` values are exact rationals (`ℚ`); a `Decimal`'s exponent is
  carried separately where an operation depends on it (`round_to_tick`).
* Python `float` quantities are likewise modelled as exact rationals.
* A method that can raise returns `Except` / `Option`; a `try/except`
  around a loop body that logs and continues is modelled by recursing on
  the rest of the list regardless of the body's outcome.
-/

/-- A Python string, as its list of character codes. -/
abbrev PyString := List ℕ

/-- Character codes of a Lean string literal, for concrete test inputs. -/
def pyStr (s : String) : PyString :=
  s.data.map Char.toNat

/-- ASCII `str.upper()` on one character code: `a`..`z` (97..122) map down
by 32, everything else is unchanged. -/
def upperCode (n : ℕ) : ℕ :=
  if 97 ≤ n ∧ n ≤ 122 then n - 32 else n

/-- `s.upper()` (ASCII range, which covers every venue symbol). -/
def pyUpper (s : PyString) : PyString :=
  s.map upperCode

/-- `s.split(sep)[0]`: the characters before the first separator. -/
def pySplitHead (sep : ℕ) : PyString → PyString
  | [] => []
  | c :: t => if c = sep then [] else c :: pySplitHead sep t

/-- Whether `pat` is a prefix of `s` (`startswith`). -/
def isPre : PyString → PyString → Bool
  | [], _ => true
  | _ :: _, [] => false
  | a :: as, b :: bs => if a = b then isPre as bs else false

/-- `s.find(pat) >= 0`: `pat` occurs somewhere in `s`. -/
def containsSub (pat : PyString) : PyString → Bool
  | [] => isPre pat []
  | c :: t => isPre pat (c :: t) || containsSub pat t

/-- Fuel-indexed worker for `pyReplace`; the fuel starts at the string's
length and falls by one per emitted character, so it never runs out. -/
def pyReplaceAux (pat rep : PyString) : ℕ → PyString → PyString
  | _, [] => []
  | 0, s => s
  | f + 1, c :: t =>
    if pat ≠ [] ∧ isPre pat (c :: t) = true then
      rep ++ pyReplaceAux pat rep f (t.drop (pat.length - 1))
    else
      c :: pyReplaceAux pat rep f t

/-- `s.replace(pat, rep)` for a non-empty `pat`: every non-overlapping
occurrence, scanned left to right, is replaced by `rep` (an empty `pat` is
never passed by the embedded code; here it returns `s` unchanged). -/
def pyReplace (pat rep s : PyString) : PyString :=
  pyReplaceAux pat rep s.length s

/-- `"USDT"` as character codes (`U` 85, `S` 83, `D` 68, `T` 84). -/
def usdtS : PyString := [85, 83, 68, 84]

/-- `"USD"` as character codes. -/
def usdS : PyString := [85, 83, 68]

/-- `"USDC"` as character codes (`C` is 67). -/
def usdcS : PyString := [85, 83, 68, 67]

/-- `"backpack"` as character codes. -/
def backpackS : PyString := pyStr "backpack"

/-- `"edgex"` as character codes. -/
def edgexS : PyString := pyStr "edgex"

/-- `"lighter"` as character codes. -/
def lighterS : PyString := pyStr "lighter"

/-- `KingOfHedge.get_unified_symbol(symbol, platform)`
(src/king_of_hedge.py lines 48-59): for platforms `backpack` and `edgex`,
take the part before the first `'_'`, uppercase it, then remove every
`USDT` occurrence if any, else every `USD` occurrence if any; any other
platform returns the symbol unchanged. -/
def get_unified_symbol (symbol platform : PyString) : PyString :=
  if platform = backpackS ∨ platform = edgexS then
    let res := pyUpper (pySplitHead 95 symbol)
    if containsSub usdtS res then pyReplace usdtS [] res
    else if containsSub usdS res then pyReplace usdS [] res
    else res
  else symbol

/-- `LighterClient.symbol_name(symbol)` (src/exchanges/lighter_client.py
lines 44-51): remove `USDT` occurrences if any; otherwise, if `USDC`
occurs, the code calls the misspelled method `symbol.repace` and raises
`AttributeError` (modelled as `.error ()`); finally uppercase. -/
def symbol_name (symbol : PyString) : Except Unit PyString :=
  if containsSub usdtS symbol then .ok (pyUpper (pyReplace usdtS [] symbol))
  else if containsSub usdcS symbol then .error ()
  else .ok (pyUpper symbol)

example : get_unified_symbol (pyStr "ETH_USDC_PERP") backpackS = pyStr "ETH" := by decide
example : get_unified_symbol (pyStr "ETHUSDT") backpackS = pyStr "ETH" := by decide
example : get_unified_symbol (pyStr "ETHUSDC") backpackS = pyStr "ETHC" := by decide
example : get_unified_symbol (pyStr "SOL") lighterS = pyStr "SOL" := by decide
example : symbol_name (pyStr "SOLUSDC") = .error () := by rfl

/-! ## Numeric core: `Decimal` rounding and quantity alignment -/

/-- `ROUND_HALF_UP` of Python's `decimal` module applied at the integers:
round to the nearest integer, ties away from zero. -/
def roundHalfUp (x : ℚ) : ℤ :=
  if 0 ≤ x then ⌊x + 1 / 2⌋ else ⌈x - 1 / 2⌉

/-- `BackpackClient.round_to_tick(price)` (src/exchanges/backpack_client.py
lines 42-47): `Decimal(price).quantize(tick, rounding=ROUND_HALF_UP)`.
`Decimal.quantize` rounds `price` to the *decimal exponent* of `tick`:
with `tickScale` fractional digits in the tick, the result is the nearest
multiple of `10 ^ (-tickScale)`, ties away from zero. The tick's mantissa
plays no part. -/
def round_to_tick (tickScale : ℕ) (price : ℚ) : ℚ :=
  (roundHalfUp (price * 10 ^ tickScale) : ℚ) / 10 ^ tickScale

/-- `ROUND_DOWN` of Python's `decimal` module at the integers: truncation
toward zero. -/
def truncQ (x : ℚ) : ℤ :=
  if 0 ≤ x then ⌊x⌋ else ⌈x⌉

/-- `BackpackClient.align_floor(quantity, min_quantity)`
(src/exchanges/backpack_client.py lines 49-62):
`(quantity / min_quantity).to_integral_value(rounding=ROUND_DOWN) * min_quantity`. -/
def align_floor (quantity min_quantity : ℚ) : ℚ :=
  (truncQ (quantity / min_quantity) : ℚ) * min_quantity

/-- `⌈⌉` in terms of `⌊⌋`, to evaluate `truncQ` on negative rationals. -/
theorem ceil_as_floor (a : ℚ) : ⌈a⌉ = -⌊-a⌋ := by
  simp [Int.floor_neg]

example : round_to_tick 2 (801 / 8) = 10013 / 100 := by
  norm_num [round_to_tick, roundHalfUp]
example : align_floor (34 / 10000) (1 / 1000) = 3 / 1000 := by
  norm_num [align_floor, truncQ]
example : align_floor (-34 / 10000) (1 / 1000) = -3 / 1000 := by
  norm_num [align_floor, truncQ, ceil_as_floor]

/-! ## Ladder generation -/

/-- Bid-ladder prices of
`BackpackClient.batch_place_buy_limit_orders` (src/exchanges/backpack_client.py
lines 78-123): `basic_bid = bids[-1][0]`,
`base = base_multiple * (asks[0][0] - bids[-1][0])`, and order `i` of
`range(order_num)` is submitted at `round_to_tick(basic_bid - base*(i+1))`. -/
def batch_buy_prices (tickScale : ℕ) (base_multiple : ℚ)
    (bids asks : List ℚ) (order_num : ℕ) : List ℚ :=
  let basic_bid := bids.getLastD 0
  let base := base_multiple * (asks.headD 0 - bids.getLastD 0)
  (List.range order_num).map fun (i : ℕ) =>
    round_to_tick tickScale (basic_bid - base * ((i : ℚ) + 1))

/-- Ask-ladder prices of
`BackpackClient.batch_place_sell_limit_orders` (src/exchanges/backpack_client.py
lines 154-187): `basic_ask = asks[0][0]`,
`base = base_multiple * (asks[0][0] - bids[-1][0])`, and order `i` of
`range(order_num)` is submitted at `round_to_tick(basic_ask + base*(i+1))`. -/
def batch_sell_prices (tickScale : ℕ) (base_multiple : ℚ)
    (bids asks : List ℚ) (order_num : ℕ) : List ℚ :=
  let basic_ask := asks.headD 0
  let base := base_multiple * (asks.headD 0 - bids.getLastD 0)
  (List.range order_num).map fun (i : ℕ) =>
    round_to_tick tickScale (basic_ask + base * ((i : ℚ) + 1))

example : batch_buy_prices 2 2 [98, 100] [101] 1 = [98] := by
  norm_num [batch_buy_prices, round_to_tick, roundHalfUp, List.range_succ]
example : batch_buy_prices 2 2 [100, 98] [101] 1 = [92] := by
  norm_num [batch_buy_prices, round_to_tick, roundHalfUp, List.range_succ]
example : batch_sell_prices 2 2 [98, 100] [101] 1 = [103] := by
  norm_num [batch_sell_prices, round_to_tick, roundHalfUp, List.range_succ]

/-! ## Market-maker skew (which ladders one iteration submits) -/

/-- The ladder sides one iteration of `MarketMaker.run` submits
(src/market_maker.py lines 132-166), as `(bid ladder, ask ladder)`:
`if abs(curr) < max_position_count` both; `elif curr >= max_position_count`
ask only; `else` bid only. -/
def ladder_sides (curr max_position_count : ℚ) : Bool × Bool :=
  if |curr| < max_position_count then (true, true)
  else if max_position_count ≤ curr then (false, true)
  else (true, false)

example : ladder_sides (-9 / 100) (1 / 10) = (true, true) := by
  have h : |(-9 : ℚ) / 100| < 1 / 10 := by
    rw [abs_of_neg (by norm_num : (-9 : ℚ) / 100 < 0)]
    norm_num
  rw [ladder_sides, if_pos h]
example : ladder_sides (1 / 10) (1 / 10) = (false, true) := by
  have h : ¬ |(1 : ℚ) / 10| < 1 / 10 := by
    rw [abs_of_pos (by norm_num : (0 : ℚ) < 1 / 10)]
    norm_num
  rw [ladder_sides, if_neg h, if_pos (le_refl _)]
example : ladder_sides (-1 / 10) (1 / 10) = (true, false) := by
  have h : ¬ |(-1 : ℚ) / 10| < 1 / 10 := by
    rw [abs_of_neg (by norm_num : (-1 : ℚ) / 10 < 0)]
    norm_num
  have h2 : ¬ (1 : ℚ) / 10 ≤ -1 / 10 := by norm_num
  rw [ladder_sides, if_neg h, if_neg h2]

/-! ## The hedging cycle (`KingOfHedge`) -/

/-- One entry of a Backpack position report, as
`BackpackClient.get_account_all_positions` returns it:
`{'symbol': ..., 'netQuantity': ...}`. -/
structure BpPosition where
  symbol : PyString
  netQuantity : ℚ
  deriving DecidableEq

/-- One entry of a Lighter position report, as `LighterClient.get_positions`
returns it: `position` is the unsigned size and `sign` is `-1` for short,
`1` for long (src/exchanges/lighter_client.py lines 349-371). -/
structure LighterPosition where
  symbol : PyString
  position : ℚ
  sign : ℤ
  deriving DecidableEq

/-- One entry of the `need_hedge_positions` list
(`{'symbol': ..., 'quantity': ...}`). -/
structure HedgeEntry where
  symbol : PyString
  quantity : ℚ
  deriving DecidableEq

/-- The inner scan of the first loop of
`KingOfHedge.get_need_hedge_positions` (src/king_of_hedge.py lines 76-91):
walk the Lighter positions, skip entries whose `position` is zero, and on
the first whose unified symbol equals `u` return `position * sign`;
default `0`. -/
def findLighterQuantity (u : PyString) : List LighterPosition → ℚ
  | [] => 0
  | p :: ps =>
    if |p.position| = 0 then findLighterQuantity u ps
    else if get_unified_symbol p.symbol lighterS = u then p.position * (p.sign : ℚ)
    else findLighterQuantity u ps

/-- First loop of `KingOfHedge.get_need_hedge_positions`
(src/king_of_hedge.py lines 69-97): every Backpack position yields one
entry under its unified symbol, with quantity
`-netQuantity - lighter_quantity`. -/
def needHedgeFromBp (bp : List BpPosition) (lt : List LighterPosition) :
    List HedgeEntry :=
  bp.map fun b =>
    ⟨get_unified_symbol b.symbol backpackS,
     -b.netQuantity - findLighterQuantity (get_unified_symbol b.symbol backpackS) lt⟩

/-- The `is_found` scan of the second loop (src/king_of_hedge.py lines
109-119): whether some Backpack position unifies to `u`. -/
def bpHasUnified (bp : List BpPosition) (u : PyString) : Bool :=
  bp.any fun b => get_unified_symbol b.symbol backpackS = u

/-- Second loop of `KingOfHedge.get_need_hedge_positions`
(src/king_of_hedge.py lines 99-124): Lighter positions with non-zero
signed quantity and no Backpack match yield an entry under the raw Lighter
symbol with quantity `-(position * sign)`. -/
def needHedgeFromLighter (bp : List BpPosition) (lt : List LighterPosition) :
    List HedgeEntry :=
  (lt.filter fun p =>
      ¬ |p.position * (p.sign : ℚ)| = 0 ∧
        ¬ bpHasUnified bp (get_unified_symbol p.symbol lighterS) = true).map
    fun p => ⟨p.symbol, -(p.position * (p.sign : ℚ))⟩

/-- `KingOfHedge.get_need_hedge_positions` (src/king_of_hedge.py lines
61-127): the first loop's entries followed by the second loop's. -/
def get_need_hedge_positions (bp : List BpPosition) (lt : List LighterPosition) :
    List HedgeEntry :=
  needHedgeFromBp bp lt ++ needHedgeFromLighter bp lt

/-- The hedge delta the emitted list assigns to a canonical key: the
quantity of the first entry with that symbol, `0` if none. -/
def lookupHedge : List HedgeEntry → PyString → ℚ
  | [], _ => 0
  | e :: es, k => if e.symbol = k then e.quantity else lookupHedge es k

/-- The Backpack position mapping: the `netQuantity` of the first position
whose unified symbol is `k`, `0` if none (a missing entry counts as zero). -/
def bpQuantity : List BpPosition → PyString → ℚ
  | [], _ => 0
  | b :: bs, k =>
    if get_unified_symbol b.symbol backpackS = k then b.netQuantity
    else bpQuantity bs k

/-- The Lighter position mapping: the signed quantity `position * sign` of
the first position whose unified symbol is `k`, `0` if none. -/
def ltQuantity : List LighterPosition → PyString → ℚ
  | [], _ => 0
  | p :: ps, k =>
    if get_unified_symbol p.symbol lighterS = k then p.position * (p.sign : ℚ)
    else ltQuantity ps k

/-- The branch of `KingOfHedge.do_hedges` (src/king_of_hedge.py lines
129-139) that decides whether an instruction becomes an order:
`quantity >= 0.001` places a buy (`some true`), `quantity <= -0.001` a
sell (`some false`), anything between places nothing. -/
def hedge_action (quantity : ℚ) : Option Bool :=
  if 1 / 1000 ≤ quantity then some true
  else if quantity ≤ -(1 / 1000) then some false
  else none

/-- `KingOfHedge.do_hedges` (src/king_of_hedge.py lines 129-139): walk the
instruction list; for each, place a market order of `abs(quantity)` when
`hedge_action` fires. The body sits in a `try/except` that logs and falls
through, so the walk continues whether or not the placement raises;
`fail` says which placements raise, and each attempt is recorded as
`(symbol, abs quantity, is_buy, succeeded)`. -/
def do_hedges (fail : PyString → ℚ → Bool) :
    List HedgeEntry → List (PyString × ℚ × Bool × Bool)
  | [] => []
  | h :: t =>
    match hedge_action h.quantity with
    | some side => (h.symbol, |h.quantity|, side, !fail h.symbol |h.quantity|) :: do_hedges fail t
    | none => do_hedges fail t

/-- The submissions `do_hedges` attempts, with the outcome forgotten. -/
def hedgeAttempts (l : List HedgeEntry) : List (PyString × ℚ × Bool) :=
  l.filterMap fun h => (hedge_action h.quantity).map fun side => (h.symbol, |h.quantity|, side)

/-! ## `cancel_order` -/

/-- The fields of `OrderResult` (src/model/order_result.py) that
`BackpackClient.cancel_order` fills. -/
structure OrderResult where
  success : Bool
  filled_size : Option ℚ
  error_message : Option PyString
  deriving DecidableEq

/-- What the venue hands back to `BackpackClient.cancel_order`:
`.error e` when the SDK call raises, `.ok none` when the response is falsy
(empty), `.ok (some (hasCode, executedQuantity))` otherwise, where
`hasCode` says whether the response carries an error `code` field. -/
abbrev CancelResponse := Except PyString (Option (Bool × ℚ))

/-- `BackpackClient.cancel_order` (src/exchanges/backpack_client.py lines
189-208): an exception gives `success=False` with the exception text; an
empty response gives `success=False`; any non-empty response gives
`success=True`, with `filled_size` the configured order quantity when the
response carries an error code, else the reported `executedQuantity`. -/
def cancel_order (config_quantity : ℚ) (resp : CancelResponse) : OrderResult :=
  match resp with
  | .error e => ⟨false, none, some e⟩
  | .ok none => ⟨false, none, some (pyStr "Failed to cancel order")⟩
  | .ok (some (hasCode, executedQuantity)) =>
    if hasCode then ⟨true, some config_quantity, none⟩
    else ⟨true, some executedQuantity, none⟩

/-! ## Theorems for the claims -/

/-- C10: `cancel_order` reports `success = true` exactly when the venue
returns a non-empty response, error-coded responses included; an
error-coded response sets `filled_size` to the configured order quantity,
a clean one to the reported executed quantity; an empty response or an
exception gives `success = false`. -/
theorem cancel_order_success_iff (q : ℚ) (resp : CancelResponse) :
    ((cancel_order q resp).success = true ↔ ∃ r, resp = .ok (some r)) ∧
    (∀ x : ℚ, resp = .ok (some (true, x)) →
      (cancel_order q resp).filled_size = some q) ∧
    (∀ x : ℚ, resp = .ok (some (false, x)) →
      (cancel_order q resp).filled_size = some x) := by
  refine ⟨?_, ?_, ?_⟩
  · match resp with
    | .error e => simp [cancel_order]
    | .ok none => simp [cancel_order]
    | .ok (some (hasCode, x)) =>
      cases hasCode <;> simp [cancel_order]
  · intro x hx
    subst hx
    simp [cancel_order]
  · intro x hx
    subst hx
    simp [cancel_order]

/-- C9: within one cycle `do_hedges` attempts the very same submissions
whatever subset of placements raises — each instruction's submission is
independent of the failures of the others. -/
theorem do_hedges_fault_isolation (fail fail2 : PyString → ℚ → Bool)
    (l : List HedgeEntry) :
    (do_hedges fail l).map (fun r => (r.1, r.2.1, r.2.2.1)) = hedgeAttempts l ∧
    (do_hedges fail l).map (fun r => (r.1, r.2.1, r.2.2.1)) =
      (do_hedges fail2 l).map (fun r => (r.1, r.2.1, r.2.2.1)) := by
  have key : ∀ (g : PyString → ℚ → Bool) (m : List HedgeEntry),
      (do_hedges g m).map (fun r => (r.1, r.2.1, r.2.2.1)) = hedgeAttempts m := by
    intro g m
    induction m with
    | nil => rfl
    | cons h t ih =>
      cases hact : hedge_action h.quantity with
      | none => simp [do_hedges, hedgeAttempts, hact, ih, List.filterMap_cons]
      | some side => simp [do_hedges, hedgeAttempts, hact, List.filterMap_cons]
                     simpa [hedgeAttempts] using ih
  exact ⟨key fail l, (key fail l).trans (key fail2 l).symm⟩

/-- C4 counterexample: a hedge delta of exactly `0.001` does produce an
order (`quantity >= 0.001` fires), yet its absolute value does not exceed
the threshold — the claim's strict-inequality criterion is false. -/
theorem hedge_action_boundary : hedge_action (1 / 1000) = some true ∧
    ¬ (1 : ℚ) / 1000 < |(1 : ℚ) / 1000| := by
  constructor
  · rw [hedge_action, if_pos (le_refl _)]
  · rw [abs_of_pos (by norm_num : (0 : ℚ) < 1 / 1000)]
    exact lt_irrefl _

/-- C4 amended: `do_hedges` submits an order for a delta exactly when its
absolute value is at least `0.001` (the comparisons are `>=` and `<=`, so
the boundary value itself is submitted). -/
theorem hedge_action_iff (q : ℚ) :
    (hedge_action q).isSome = true ↔ 1 / 1000 ≤ |q| := by
  unfold hedge_action
  split_ifs with h1 h2
  · simpa using le_trans h1 (le_abs_self q)
  · simp only [Option.isSome_some, true_iff]
    calc (1 : ℚ) / 1000 ≤ -q := by linarith
    _ ≤ |q| := neg_le_abs q
  · simp only [Option.isSome_none, Bool.false_eq_true, false_iff, not_le]
    rcases abs_cases q with ⟨he, _⟩ | ⟨he, _⟩ <;> rw [he] <;> linarith

example : hedge_action (5 / 10000) = none := by
  rw [hedge_action, if_neg (by norm_num), if_neg (by norm_num)]
example : hedge_action (11 / 10000) = some true := by
  rw [hedge_action, if_pos (by norm_num)]

/-- C7: with a positive inventory cap, one market-maker iteration is
two-sided exactly when `|position| < cap`, ask-only exactly when
`position >= cap`, bid-only exactly when `position <= -cap`, and never
zero-sided. -/
theorem ladder_sides_three_state (p M : ℚ) (hM : 0 < M) :
    (ladder_sides p M = (true, true) ↔ |p| < M) ∧
    (ladder_sides p M = (false, true) ↔ M ≤ p) ∧
    (ladder_sides p M = (true, false) ↔ p ≤ -M) ∧
    ladder_sides p M ≠ (false, false) := by
  have hself := le_abs_self p
  have hneg := neg_le_abs p
  by_cases h1 : |p| < M
  · have e : ladder_sides p M = (true, true) := by
      rw [ladder_sides, if_pos h1]
    rw [e]
    refine ⟨iff_of_true rfl h1, ?_, ?_, by simp⟩
    · exact iff_of_false (by simp) (by intro h; linarith)
    · exact iff_of_false (by simp) (by intro h; linarith)
  · by_cases h2 : M ≤ p
    · have e : ladder_sides p M = (false, true) := by
        rw [ladder_sides, if_neg h1, if_pos h2]
      rw [e]
      refine ⟨iff_of_false (by simp) h1, iff_of_true rfl h2, ?_, by simp⟩
      exact iff_of_false (by simp) (by intro h; linarith)
    · have hple : p ≤ -M := by
        rcases le_abs.mp (not_lt.mp h1) with h | h
        · exact absurd h h2
        · linarith
      have e : ladder_sides p M = (true, false) := by
        rw [ladder_sides, if_neg h1, if_neg h2]
      rw [e]
      exact ⟨iff_of_false (by simp) h1, iff_of_false (by simp) h2,
        iff_of_true rfl hple, by simp⟩

/-- C8 counterexample: `align_floor` truncates toward zero, so on the
negative quantity `-0.0034` with lot `0.001` it returns `-0.003`, which is
strictly greater than the input — the claimed `floor_quantity(q,l) <= q`
fails for negative `q`. -/
theorem align_floor_negative_counterexample :
    align_floor (-34 / 10000) (1 / 1000) = -3 / 1000 ∧
    ¬ align_floor (-34 / 10000) (1 / 1000) ≤ -34 / 10000 := by
  have h : align_floor (-34 / 10000) (1 / 1000) = -3 / 1000 := by
    norm_num [align_floor, truncQ, ceil_as_floor]
  refine ⟨h, ?_⟩
  rw [h]
  norm_num

/-- C8 amended: for a nonnegative quantity and a positive lot size,
`align_floor` never exceeds the quantity, and for every quantity the
result is an exact integer multiple of the lot size (truncation toward
zero). -/
theorem align_floor_spec (q l : ℚ) (hq : 0 ≤ q) (hl : 0 < l) :
    align_floor q l ≤ q ∧ ∀ q' : ℚ, ∃ k : ℤ, align_floor q' l = k * l := by
  constructor
  · have hpos : 0 ≤ q / l := div_nonneg hq hl.le
    rw [align_floor, truncQ, if_pos hpos]
    have hf := Int.floor_le (q / l)
    have hm := mul_le_mul_of_nonneg_right hf hl.le
    rwa [div_mul_cancel₀ q hl.ne'] at hm
  · intro q'
    exact ⟨truncQ (q' / l), rfl⟩

/-- C8 witness: `floor_quantity(0.0034, 0.001)` respects the bound and
lands on a multiple of the lot size. -/
theorem align_floor_spec_witness :
    align_floor (34 / 10000) (1 / 1000) ≤ 34 / 10000 ∧
    ∀ q' : ℚ, ∃ k : ℤ, align_floor q' (1 / 1000) = k * (1 / 1000) :=
  align_floor_spec (34 / 10000) (1 / 1000) (by norm_num) (by norm_num)

/-- C1: at price `100.125` with tick `0.25` (decimal exponent `-2`),
`round_to_tick` returns `100.13` — not `100.25`, and not a multiple of the
tick: `Decimal.quantize` rounds to the tick's decimal exponent, not to a
multiple of the tick, contradicting the code's own comment. -/
theorem round_to_tick_not_tick_multiple :
    round_to_tick 2 (801 / 8) = 10013 / 100 ∧
    round_to_tick 2 (801 / 8) ≠ 401 / 4 ∧
    ∀ k : ℤ, round_to_tick 2 (801 / 8) ≠ (k : ℚ) * (1 / 4) := by
  have h : round_to_tick 2 (801 / 8) = 10013 / 100 := by
    norm_num [round_to_tick, roundHalfUp]
  refine ⟨h, by rw [h]; norm_num, ?_⟩
  intro k hk
  rw [h] at hk
  have h25 : (k : ℚ) * 25 = 10013 := by linarith
  have h25' : (k * 25 : ℤ) = 10013 := by exact_mod_cast h25
  omega

/-- C2 counterexample: for a book holding bids `98` and `100` with best
ask `101`, multiplier `2` and one level, the code prices the single bid at
`98` (bids listed `[98, 100]`, so `bids[-1] = 100`) or at `92` (bids
listed `[100, 98]`) — under neither depth ordering does the claimed
formula value `96 = 98 - 2*(101-100)*1` appear. -/
theorem batch_prices_counterexample :
    batch_buy_prices 2 2 [98, 100] [101] 1 = [98] ∧
    batch_buy_prices 2 2 [100, 98] [101] 1 = [92] ∧
    ([98] : List ℚ) ≠ [96] ∧ ([92] : List ℚ) ≠ [96] ∧
    batch_sell_prices 2 2 [98, 100] [101] 1 = [103] := by
  refine ⟨?_, ?_, by norm_num, by norm_num, ?_⟩ <;>
    norm_num [batch_buy_prices, batch_sell_prices, round_to_tick, roundHalfUp,
      List.range_succ]

/-- Ordering fact behind the amended C2: in an ascending depth list the
last entry is the greatest, so `bids[-1]` is the best bid. -/
theorem le_getLastD_sorted :
    ∀ (l : List ℚ) (d : ℚ), l.Sorted (· ≤ ·) → ∀ x ∈ l, x ≤ l.getLastD d := by
  intro l
  induction l with
  | nil =>
    intro d _ x hx
    cases hx
  | cons b bs ih =>
    intro d hs x hx
    rw [List.getLastD_cons]
    rcases List.mem_cons.mp hx with rfl | hx'
    · cases bs with
      | nil => simp
      | cons c cs =>
        rw [List.getLastD_cons]
        exact (List.sorted_cons.mp hs).1 _ (List.getLastD_mem_cons _ _)
    · exact ih b (List.sorted_cons.mp hs).2 x hx'

/-- Indexing a mapped `range`, the shape of both ladder builders. -/
theorem range_map_getElem (f : ℕ → ℚ) (n i : ℕ) (hi : i < n) :
    ((List.range n).map f)[i]? = some (f i) := by
  rw [List.getElem?_map, List.getElem?_range hi, Option.map_some']

/-- C2 amended: level `i` (0-indexed) of the bid ladder is quantized
`L - m*(a - L)*(i+1)` and of the ask ladder quantized `a + m*(a - L)*(i+1)`,
where `L = bids[-1]` (the last fetched bid — under ascending depth the
*best* bid, as the third conjunct states) and `a = asks[0]`: the same
`bids[-1]` anchors the bid ladder and the spread used for the spacing. -/
theorem batch_prices_ladder (d : ℕ) (m : ℚ) (bids asks : List ℚ) (n i : ℕ)
    (hi : i < n) :
    (batch_buy_prices d m bids asks n)[i]? =
      some (round_to_tick d
        (bids.getLastD 0 - m * (asks.headD 0 - bids.getLastD 0) * ((i : ℚ) + 1))) ∧
    (batch_sell_prices d m bids asks n)[i]? =
      some (round_to_tick d
        (asks.headD 0 + m * (asks.headD 0 - bids.getLastD 0) * ((i : ℚ) + 1))) ∧
    (bids.Sorted (· ≤ ·) → ∀ x ∈ bids, x ≤ bids.getLastD 0) := by
  refine ⟨?_, ?_, fun hs x hx => le_getLastD_sorted bids 0 hs x hx⟩
  · simp only [batch_buy_prices]
    exact range_map_getElem _ n i hi
  · simp only [batch_sell_prices]
    exact range_map_getElem _ n i hi

/-- C2 witness: the claim's book (`bids` ascending `[98, 100]`, best ask
`101`, multiplier `2`, one level) instantiates the ladder formulas. -/
theorem batch_prices_ladder_witness :
    (batch_buy_prices 2 2 [98, 100] [101] 1)[0]? =
      some (round_to_tick 2
        (([98, 100] : List ℚ).getLastD 0 -
          2 * (([101] : List ℚ).headD 0 - ([98, 100] : List ℚ).getLastD 0) *
            (((0 : ℕ) : ℚ) + 1))) ∧
    (batch_sell_prices 2 2 [98, 100] [101] 1)[0]? =
      some (round_to_tick 2
        (([101] : List ℚ).headD 0 +
          2 * (([101] : List ℚ).headD 0 - ([98, 100] : List ℚ).getLastD 0) *
            (((0 : ℕ) : ℚ) + 1))) ∧
    (([98, 100] : List ℚ).Sorted (· ≤ ·) →
      ∀ x ∈ ([98, 100] : List ℚ), x ≤ ([98, 100] : List ℚ).getLastD 0) :=
  batch_prices_ladder 2 2 [98, 100] [101] 1 0 (by norm_num)

/-! ### String lemmas for the symbol unifier -/

/-- Every list is a prefix of itself. -/
theorem isPre_refl : ∀ l : PyString, isPre l l = true
  | [] => rfl
  | a :: as => by simp [isPre, isPre_refl as]

/-- A list is a prefix of itself followed by anything. -/
theorem isPre_append_right : ∀ (p r : PyString), isPre p (p ++ r) = true
  | [], _ => rfl
  | a :: as, r => by simp [isPre, isPre_append_right as r]

/-- A prefix occurrence is an occurrence. -/
theorem containsSub_of_isPre {pat s : PyString} (h : isPre pat s = true) :
    containsSub pat s = true := by
  cases s with
  | nil => simpa [containsSub] using h
  | cons c t => simp [containsSub, h]

/-- An occurrence in the right part survives prepending. -/
theorem containsSub_append_left (pat : PyString) :
    ∀ (s t : PyString), containsSub pat t = true → containsSub pat (s ++ t) = true := by
  intro s
  induction s with
  | nil => intro t h; simpa using h
  | cons c s' ih =>
    intro t h
    rw [List.cons_append]
    simp only [containsSub, Bool.or_eq_true]
    exact Or.inr (ih t h)

/-- No occurrence in a cons means no occurrence in its tail. -/
theorem containsSub_cons_false {pat : PyString} {c : ℕ} {t : PyString}
    (h : containsSub pat (c :: t) = false) : containsSub pat t = false := by
  have h' := h
  rw [containsSub, Bool.or_eq_false_iff] at h'
  exact h'.2

/-- Shortening a prefix keeps it a prefix. -/
theorem isPre_weaken : ∀ (p q s : PyString), isPre (p ++ q) s = true → isPre p s = true := by
  intro p
  induction p with
  | nil => intro q s _; rfl
  | cons a as ih =>
    intro q s h
    cases s with
    | nil => simp [isPre] at h
    | cons b bs =>
      simp only [isPre] at h ⊢
      by_cases hab : a = b
      · rw [if_pos hab] at h ⊢
        exact ih q bs h
      · rw [if_neg hab] at h
        exact absurd h (by simp)

/-- Shortening a pattern keeps its occurrences. -/
theorem containsSub_weaken (p q : PyString) :
    ∀ s : PyString, containsSub (p ++ q) s = true → containsSub p s = true := by
  intro s
  induction s with
  | nil =>
    intro h
    rw [containsSub] at h ⊢
    exact isPre_weaken p q [] h
  | cons c t ih =>
    intro h
    rw [containsSub, Bool.or_eq_true] at h ⊢
    rcases h with h | h
    · exact Or.inl (isPre_weaken p q (c :: t) h)
    · exact Or.inr (ih h)

/-- A prefix of `B ++ t` no longer than `B` is a prefix of `B`. -/
theorem isPre_of_isPre_append : ∀ (p B t : PyString), p.length ≤ B.length →
    isPre p (B ++ t) = true → isPre p B = true := by
  intro p
  induction p with
  | nil => intro B t _ _; rfl
  | cons a as ih =>
    intro B t hlen h
    cases B with
    | nil => simp at hlen
    | cons b bs =>
      simp only [isPre] at h ⊢
      by_cases hab : a = b
      · rw [if_pos hab] at h ⊢
        exact ih bs t (by simpa using hlen) h
      · rw [if_neg hab] at h
        exact absurd h (by simp)

/-- Fuel irrelevance for `pyReplaceAux`: any fuel at least the string's
length computes the same result. -/
theorem pyReplaceAux_fuel (pat rep : PyString) :
    ∀ (f g : ℕ) (s : PyString), s.length ≤ f → s.length ≤ g →
      pyReplaceAux pat rep f s = pyReplaceAux pat rep g s := by
  intro f
  induction f with
  | zero =>
    intro g s hf _
    have hs : s = [] := List.eq_nil_of_length_eq_zero (Nat.le_zero.mp hf)
    subst hs
    cases g <;> rfl
  | succ f' ih =>
    intro g s hf hg
    cases s with
    | nil => cases g <;> rfl
    | cons c t =>
      cases g with
      | zero => simp at hg
      | succ g' =>
        have hf' : t.length ≤ f' := Nat.succ_le_succ_iff.mp (by simpa using hf)
        have hg' : t.length ≤ g' := Nat.succ_le_succ_iff.mp (by simpa using hg)
        by_cases hc : pat ≠ [] ∧ isPre pat (c :: t) = true
        · rw [pyReplaceAux, pyReplaceAux, if_pos hc, if_pos hc]
          have hd : (t.drop (pat.length - 1)).length ≤ t.length := by
            rw [List.length_drop]
            omega
          exact congrArg (rep ++ ·) (ih g' _ (le_trans hd hf') (le_trans hd hg'))
        · rw [pyReplaceAux, pyReplaceAux, if_neg hc, if_neg hc]
          exact congrArg (c :: ·) (ih g' t hf' hg')

/-- `pyReplace` on a cons that does not start an occurrence keeps the head
(general form, also covering the empty pattern). -/
theorem pyReplace_cons_skip {pat : PyString} {c : ℕ} {t : PyString} (rep : PyString)
    (h : ¬(pat ≠ [] ∧ isPre pat (c :: t) = true)) :
    pyReplace pat rep (c :: t) = c :: pyReplace pat rep t := by
  rw [pyReplace, pyReplace, List.length_cons, pyReplaceAux, if_neg h]

/-- `pyReplace` on a cons that does not start an occurrence keeps the head. -/
theorem pyReplace_cons_miss {pat : PyString} {c : ℕ} {t : PyString} (rep : PyString)
    (h : isPre pat (c :: t) = false) :
    pyReplace pat rep (c :: t) = c :: pyReplace pat rep t :=
  pyReplace_cons_skip rep (by rintro ⟨_, h'⟩; rw [h] at h'; exact Bool.false_ne_true h')

/-- `pyReplace` on a cons that starts an occurrence emits the replacement
and skips the pattern's length. -/
theorem pyReplace_cons_hit {pat : PyString} {c : ℕ} {t : PyString} (rep : PyString)
    (hne : pat ≠ []) (h : isPre pat (c :: t) = true) :
    pyReplace pat rep (c :: t) = rep ++ pyReplace pat rep (t.drop (pat.length - 1)) := by
  rw [pyReplace, pyReplace, List.length_cons, pyReplaceAux, if_pos ⟨hne, h⟩]
  have hd : (t.drop (pat.length - 1)).length ≤ t.length := by
    rw [List.length_drop]
    omega
  exact congrArg (rep ++ ·) (pyReplaceAux_fuel pat rep t.length _ _ hd le_rfl)

/-- With no `USD` inside the nonempty block `B`, `USD` cannot begin at the
head of `B ++ 85 :: t`: any straddling start dies on a character mismatch,
and a start inside `B` would be a `USD` occurrence in `B`. -/
theorem isPre_usd_append_false (c : ℕ) (B' t : PyString)
    (hB : containsSub usdS (c :: B') = false) :
    isPre usdS ((c :: B') ++ 85 :: t) = false := by
  rcases B' with _ | ⟨d, B''⟩
  · simp [usdS, isPre]
  rcases B'' with _ | ⟨e, rest⟩
  · simp [usdS, isPre]
  cases hval : isPre usdS ((c :: d :: e :: rest) ++ 85 :: t) with
  | false => rfl
  | true =>
    have h3 : isPre usdS (c :: d :: e :: rest) = true :=
      isPre_of_isPre_append usdS (c :: d :: e :: rest) (85 :: t)
        (by simp [usdS]) hval
    exact absurd (containsSub_of_isPre h3) (by simp [hB])

/-- The `USDT` version of `isPre_usd_append_false`. -/
theorem isPre_usdt_append_false (c : ℕ) (B' t : PyString)
    (hB : containsSub usdS (c :: B') = false) :
    isPre usdtS ((c :: B') ++ 85 :: t) = false := by
  rcases B' with _ | ⟨d, B''⟩
  · simp [usdtS, isPre]
  rcases B'' with _ | ⟨e, B'''⟩
  · simp [usdtS, isPre]
  rcases B''' with _ | ⟨f, rest⟩
  · simp [usdtS, isPre]
  cases hval : isPre usdtS ((c :: d :: e :: f :: rest) ++ 85 :: t) with
  | false => rfl
  | true =>
    have h4 : isPre usdtS (c :: d :: e :: f :: rest) = true :=
      isPre_of_isPre_append usdtS (c :: d :: e :: f :: rest) (85 :: t)
        (by simp [usdtS]) hval
    have h3 : isPre usdS (c :: d :: e :: f :: rest) = true :=
      isPre_weaken usdS [84] _ (by rwa [show usdS ++ [84] = usdtS from rfl])
    exact absurd (containsSub_of_isPre h3) (by simp [hB])

/-- No `USD` occurrence anywhere rules out `USDT` occurrences too. -/
theorem no_usdt_of_no_usd {B : PyString} (hB : containsSub usdS B = false) :
    containsSub usdtS B = false := by
  cases h : containsSub usdtS B with
  | false => rfl
  | true =>
    have := containsSub_weaken usdS [84] B
      (by rwa [show usdS ++ [84] = usdtS from rfl])
    exact absurd this (by simp [hB])

/-- `USDT` never occurs in `B ++ USD` when `USD` does not occur in `B`. -/
theorem no_usdt_in_usd_suffix :
    ∀ B : PyString, containsSub usdS B = false →
      containsSub usdtS (B ++ usdS) = false := by
  intro B
  induction B with
  | nil => intro _; decide
  | cons c B' ih =>
    intro hB
    rw [List.cons_append]
    have h1 : isPre usdtS (c :: (B' ++ usdS)) = false := by
      simpa [usdS] using isPre_usdt_append_false c B' [83, 68] hB
    have h2 : containsSub usdtS (B' ++ usdS) = false :=
      ih (containsSub_cons_false hB)
    simp [containsSub, h1, h2]

/-- `USDT` never occurs in `B ++ USDC` when `USD` does not occur in `B`. -/
theorem no_usdt_in_usdc_suffix :
    ∀ B : PyString, containsSub usdS B = false →
      containsSub usdtS (B ++ usdcS) = false := by
  intro B
  induction B with
  | nil => intro _; decide
  | cons c B' ih =>
    intro hB
    rw [List.cons_append]
    have h1 : isPre usdtS (c :: (B' ++ usdcS)) = false := by
      simpa [usdcS] using isPre_usdt_append_false c B' [83, 68, 67] hB
    have h2 : containsSub usdtS (B' ++ usdcS) = false :=
      ih (containsSub_cons_false hB)
    simp [containsSub, h1, h2]

/-- Removing the appended `USDT` from a `USD`-free block returns the block. -/
theorem pyReplace_strip_usdt :
    ∀ B : PyString, containsSub usdS B = false →
      pyReplace usdtS [] (B ++ usdtS) = B := by
  intro B
  induction B with
  | nil => intro _; decide
  | cons c B' ih =>
    intro hB
    have hmiss : isPre usdtS (c :: (B' ++ usdtS)) = false := by
      simpa [usdtS] using isPre_usdt_append_false c B' [83, 68, 84] hB
    rw [List.cons_append, pyReplace_cons_miss [] hmiss,
      ih (containsSub_cons_false hB)]

/-- Removing the appended `USD` from a `USD`-free block returns the block. -/
theorem pyReplace_strip_usd :
    ∀ B : PyString, containsSub usdS B = false →
      pyReplace usdS [] (B ++ usdS) = B := by
  intro B
  induction B with
  | nil => intro _; decide
  | cons c B' ih =>
    intro hB
    have hmiss : isPre usdS (c :: (B' ++ usdS)) = false := by
      simpa [usdS] using isPre_usd_append_false c B' [83, 68] hB
    rw [List.cons_append, pyReplace_cons_miss [] hmiss,
      ih (containsSub_cons_false hB)]

/-- Removing `USD` from a `USD`-free block followed by `USDC` leaves the
block and a trailing `C`. -/
theorem pyReplace_strip_usdc :
    ∀ B : PyString, containsSub usdS B = false →
      pyReplace usdS [] (B ++ usdcS) = B ++ [67] := by
  intro B
  induction B with
  | nil => intro _; decide
  | cons c B' ih =>
    intro hB
    have hmiss : isPre usdS (c :: (B' ++ usdcS)) = false := by
      simpa [usdcS] using isPre_usd_append_false c B' [83, 68, 67] hB
    rw [List.cons_append, pyReplace_cons_miss [] hmiss,
      ih (containsSub_cons_false hB), List.cons_append]

/-- `USDT` occurs at the end of `B ++ USDT`. -/
theorem containsSub_usdt_append (B : PyString) :
    containsSub usdtS (B ++ usdtS) = true :=
  containsSub_append_left usdtS B usdtS (by decide)

/-- `USD` occurs at the end of `B ++ USD`. -/
theorem containsSub_usd_append (B : PyString) :
    containsSub usdS (B ++ usdS) = true :=
  containsSub_append_left usdS B usdS (by decide)

/-- `USD` occurs inside `B ++ USDC`. -/
theorem containsSub_usd_usdc_append (B : PyString) :
    containsSub usdS (B ++ usdcS) = true :=
  containsSub_append_left usdS B usdcS (by decide)

/-- `split('_')[0]` of a separator-free string is the string itself. -/
theorem pySplitHead_no_sep :
    ∀ s : PyString, (95 : ℕ) ∉ s → pySplitHead 95 s = s := by
  intro s
  induction s with
  | nil => intro _; rfl
  | cons c t ih =>
    intro h
    have hc : ¬ c = 95 := fun hc => h (hc ▸ List.mem_cons_self c t)
    simp only [pySplitHead, if_neg hc]
    rw [ih fun ht => h (List.mem_cons_of_mem c ht)]

/-- A false Boolean is not true (to discharge `if` conditions). -/
theorem bfalse {b : Bool} (h : b = false) : ¬ b = true := by
  simp [h]

/-- C5 counterexample: a `USDC` suffix is not stripped by
`get_unified_symbol` — the `elif` replaces `USD` and leaves a trailing `C`
(`ETHUSDC ↦ ETHC`, not `ETH`); and `LighterClient.symbol_name` raises
`AttributeError` on any `USDC` symbol (the misspelled `repace`), so the
unifier does have a failure mode. -/
theorem unified_symbol_usdc_counterexample :
    get_unified_symbol (pyStr "ETHUSDC") backpackS = pyStr "ETHC" ∧
    pyStr "ETHC" ≠ pyStr "ETH" ∧
    symbol_name (pyStr "SOLUSDC") = .error () ∧
    get_unified_symbol (pyStr "eth_usdt") lighterS = pyStr "eth_usdt" :=
  ⟨by decide, by decide, rfl, by decide⟩

/-- C5 amended: for the platforms `backpack`/`edgex` the unifier uppercases
the part before the first underscore and then removes all `USDT`
occurrences if any, else all `USD` occurrences; for an underscore-free
asset name `A` whose uppercasing contains no `USD`: `A ++ USDT ↦ upper A`,
`A ++ USD ↦ upper A`, `A ++ USDC ↦ upper A ++ "C"` (the `C` survives), and
a bare `A` (unknown suffix) maps to `upper A`; every other platform
returns the symbol completely unchanged. -/
theorem get_unified_symbol_spec (A : PyString)
    (hA : (95 : ℕ) ∉ A) (hU : containsSub usdS (pyUpper A) = false) :
    get_unified_symbol (A ++ usdtS) backpackS = pyUpper A ∧
    get_unified_symbol (A ++ usdS) backpackS = pyUpper A ∧
    get_unified_symbol (A ++ usdcS) backpackS = pyUpper A ++ [67] ∧
    get_unified_symbol A backpackS = pyUpper A ∧
    ∀ s p : PyString, p ≠ backpackS → p ≠ edgexS →
      get_unified_symbol s p = s := by
  have hbp : backpackS = backpackS ∨ backpackS = edgexS := Or.inl rfl
  have hmem : ∀ X : PyString, (∀ x ∈ X, x ≠ 95) → (95 : ℕ) ∉ A ++ X := by
    intro X hX h
    rcases List.mem_append.mp h with h | h
    · exact hA h
    · exact hX 95 h rfl
  have hsp : ∀ X : PyString, (∀ x ∈ X, x ≠ 95) →
      pySplitHead 95 (A ++ X) = A ++ X := fun X hX =>
    pySplitHead_no_sep (A ++ X) (hmem X hX)
  have hup : ∀ X : PyString, pyUpper X = X →
      pyUpper (A ++ X) = pyUpper A ++ X := by
    intro X hX
    rw [pyUpper, List.map_append]
    exact congrArg (pyUpper A ++ ·) hX
  refine ⟨?_, ?_, ?_, ?_, ?_⟩
  · simp only [get_unified_symbol, if_pos hbp]
    rw [hsp usdtS (by decide), hup usdtS (by decide),
      if_pos (containsSub_usdt_append (pyUpper A))]
    exact pyReplace_strip_usdt (pyUpper A) hU
  · simp only [get_unified_symbol, if_pos hbp]
    rw [hsp usdS (by decide), hup usdS (by decide),
      if_neg (bfalse (no_usdt_in_usd_suffix (pyUpper A) hU)),
      if_pos (containsSub_usd_append (pyUpper A))]
    exact pyReplace_strip_usd (pyUpper A) hU
  · simp only [get_unified_symbol, if_pos hbp]
    rw [hsp usdcS (by decide), hup usdcS (by decide),
      if_neg (bfalse (no_usdt_in_usdc_suffix (pyUpper A) hU)),
      if_pos (containsSub_usd_usdc_append (pyUpper A))]
    exact pyReplace_strip_usdc (pyUpper A) hU
  · simp only [get_unified_symbol, if_pos hbp]
    rw [pySplitHead_no_sep A hA,
      if_neg (bfalse (no_usdt_of_no_usd hU)), if_neg (bfalse hU)]
    simp
  · intro s p h1 h2
    simp only [get_unified_symbol]
    rw [if_neg]
    rintro (h | h)
    · exact h1 h
    · exact h2 h

/-- C5 witness: the asset name `ETH` instantiates the amended unifier
contract for all four suffix shapes. -/
theorem get_unified_symbol_spec_witness :
    get_unified_symbol (pyStr "ETH" ++ usdtS) backpackS = pyUpper (pyStr "ETH") ∧
    get_unified_symbol (pyStr "ETH" ++ usdS) backpackS = pyUpper (pyStr "ETH") ∧
    get_unified_symbol (pyStr "ETH" ++ usdcS) backpackS =
      pyUpper (pyStr "ETH") ++ [67] ∧
    get_unified_symbol (pyStr "ETH") backpackS = pyUpper (pyStr "ETH") ∧
    ∀ s p : PyString, p ≠ backpackS → p ≠ edgexS →
      get_unified_symbol s p = s :=
  get_unified_symbol_spec (pyStr "ETH") (by decide) (by decide)

/-- C7 witness: the claim's own numbers, cap `0.1` with positions `-0.09`
(two-sided), `0.1` (ask-only) and `-0.1` (bid-only). -/
theorem ladder_sides_three_state_witness :
    (ladder_sides (-9 / 100) (1 / 10) = (true, true) ↔ |(-9 : ℚ) / 100| < 1 / 10) ∧
    (ladder_sides (-9 / 100) (1 / 10) = (false, true) ↔ (1 : ℚ) / 10 ≤ -9 / 100) ∧
    (ladder_sides (-9 / 100) (1 / 10) = (true, false) ↔ (-9 : ℚ) / 100 ≤ -(1 / 10)) ∧
    ladder_sides (-9 / 100) (1 / 10) ≠ (false, false) :=
  ladder_sides_three_state (-9 / 100) (1 / 10) (by norm_num)

/-- Replacement by the empty string only removes characters: every
character of the result was in the input (fuel-indexed induction). -/
theorem mem_of_mem_pyReplace_fuel (pat : PyString) :
    ∀ (n : ℕ) (s : PyString), s.length ≤ n →
      ∀ x, x ∈ pyReplace pat [] s → x ∈ s := by
  intro n
  induction n with
  | zero =>
    intro s hs x hx
    have h0 : s = [] := List.eq_nil_of_length_eq_zero (Nat.le_zero.mp hs)
    subst h0
    simp [pyReplace, pyReplaceAux] at hx
  | succ n ih =>
    intro s hs x hx
    cases s with
    | nil => simp [pyReplace, pyReplaceAux] at hx
    | cons c t =>
      have ht : t.length ≤ n := Nat.succ_le_succ_iff.mp (by simpa using hs)
      by_cases hc : pat ≠ [] ∧ isPre pat (c :: t) = true
      · rw [pyReplace_cons_hit [] hc.1 hc.2, List.nil_append] at hx
        have hd : (t.drop (pat.length - 1)).length ≤ n := by
          rw [List.length_drop]
          omega
        exact List.mem_cons_of_mem c
          (List.drop_subset _ t (ih _ hd x hx))
      · rw [pyReplace_cons_skip [] hc] at hx
        rcases List.mem_cons.mp hx with rfl | hx'
        · exact List.mem_cons_self x t
        · exact List.mem_cons_of_mem c (ih t ht x hx')

/-- Wrapper for `mem_of_mem_pyReplace_fuel` at the definition's own fuel. -/
theorem mem_of_mem_pyReplace {pat s : PyString} {x : ℕ}
    (hx : x ∈ pyReplace pat [] s) : x ∈ s :=
  mem_of_mem_pyReplace_fuel pat s.length s le_rfl x hx

/-- Characters kept by `split(sep)[0]` differ from the separator. -/
theorem mem_pySplitHead_ne (sep : ℕ) :
    ∀ (s : PyString) (x : ℕ), x ∈ pySplitHead sep s → x ≠ sep := by
  intro s
  induction s with
  | nil => intro x hx; cases hx
  | cons c t ih =>
    intro x hx
    by_cases hc : c = sep
    · rw [pySplitHead, if_pos hc] at hx
      cases hx
    · rw [pySplitHead, if_neg hc] at hx
      rcases List.mem_cons.mp hx with rfl | hx'
      · exact hc
      · exact ih x hx'

/-- ASCII uppercasing is idempotent on character codes. -/
theorem upperCode_idem (n : ℕ) : upperCode (upperCode n) = upperCode n := by
  simp only [upperCode]
  split_ifs <;> omega

/-- Uppercasing never produces an underscore. -/
theorem upperCode_ne_95 {n : ℕ} (h : n ≠ 95) : upperCode n ≠ 95 := by
  simp only [upperCode]
  split_ifs <;> omega

/-- A string of upper-fixed characters is fixed by `pyUpper`. -/
theorem pyUpper_fixed :
    ∀ s : PyString, (∀ x ∈ s, upperCode x = x) → pyUpper s = s := by
  intro s
  induction s with
  | nil => intro _; rfl
  | cons c t ih =>
    intro h
    rw [pyUpper, List.map_cons, h c (List.mem_cons_self c t)]
    exact congrArg (c :: ·) (ih fun x hx => h x (List.mem_cons_of_mem c hx))

/-- Whatever branch the unifier takes on a `backpack`/`edgex` platform, the
result's characters come from the uppercased pre-underscore block. -/
theorem unify_backpack_mem (s p : PyString) (hp : p = backpackS ∨ p = edgexS) :
    ∀ x ∈ get_unified_symbol s p, x ∈ pyUpper (pySplitHead 95 s) := by
  intro x hx
  simp only [get_unified_symbol, if_pos hp] at hx
  split_ifs at hx
  · exact mem_of_mem_pyReplace hx
  · exact mem_of_mem_pyReplace hx
  · exact hx

/-- A symbol that is already underscore-free, uppercase and `USD`-free
passes through the unifier unchanged on a `backpack`/`edgex` platform. -/
theorem unify_of_clean (r p : PyString) (hp : p = backpackS ∨ p = edgexS)
    (hne : (95 : ℕ) ∉ r) (hfix : pyUpper r = r)
    (h : containsSub usdS r = false) :
    get_unified_symbol r p = r := by
  simp only [get_unified_symbol, if_pos hp]
  rw [pySplitHead_no_sep r hne, hfix,
    if_neg (bfalse (no_usdt_of_no_usd h)), if_neg (bfalse h)]

/-- C6 counterexample: unification is not idempotent in general — one pass
over `USDUSDT` removes the `USDT` occurrence and leaves `USD`, and a
second pass removes that too, giving the empty symbol. -/
theorem unify_not_idempotent :
    get_unified_symbol (pyStr "USDUSDT") backpackS = pyStr "USD" ∧
    get_unified_symbol (get_unified_symbol (pyStr "USDUSDT") backpackS)
      backpackS = [] ∧
    ([] : PyString) ≠ pyStr "USD" :=
  ⟨by decide, by decide, by decide⟩

/-- C6 amended: the unifier is idempotent on every symbol whose unified
form contains no `USD` substring (which holds for every ordinary asset
name; a unified form still containing `USD`, such as the one `USDUSDT`
produces, is stripped further by a second pass). On platforms other than
`backpack`/`edgex` it is the identity, hence idempotent unconditionally. -/
theorem get_unified_symbol_idem (s p : PyString)
    (h : containsSub usdS (get_unified_symbol s p) = false) :
    get_unified_symbol (get_unified_symbol s p) p = get_unified_symbol s p := by
  by_cases hp : p = backpackS ∨ p = edgexS
  · have hmem := unify_backpack_mem s p hp
    have hne : (95 : ℕ) ∉ get_unified_symbol s p := by
      intro hx
      obtain ⟨y, hy_mem, hy⟩ := List.mem_map.mp (hmem 95 hx)
      exact upperCode_ne_95 (mem_pySplitHead_ne 95 s y hy_mem) hy
    have hfix : pyUpper (get_unified_symbol s p) = get_unified_symbol s p := by
      apply pyUpper_fixed
      intro x hx
      obtain ⟨y, _, hy⟩ := List.mem_map.mp (hmem x hx)
      rw [← hy]
      exact upperCode_idem y
    exact unify_of_clean _ p hp hne hfix h
  · have e : get_unified_symbol s p = s := by
      simp only [get_unified_symbol, if_neg hp]
    rw [e]
    exact e

/-- C6 witness: unifying `ETHUSDT` twice on `backpack` equals unifying it
once (its unified form `ETH` holds no `USD`). -/
theorem get_unified_symbol_idem_witness :
    get_unified_symbol (get_unified_symbol (pyStr "ETHUSDT") backpackS)
      backpackS = get_unified_symbol (pyStr "ETHUSDT") backpackS :=
  get_unified_symbol_idem (pyStr "ETHUSDT") backpackS (by decide)

example : get_unified_symbol (pyStr "ETH") backpackS = pyStr "ETH" := by decide
example : get_unified_symbol (pyStr "ETH_USDT_PERP") backpackS =
    get_unified_symbol (pyStr "ETHUSDT") backpackS := by decide

/-! ### Lemmas for the hedge-delta computation (C3) -/

/-- On the `lighter` platform the unifier is the identity (the platform
check matches only `backpack`/`edgex`). -/
theorem unify_lighter_id (s : PyString) : get_unified_symbol s lighterS = s := by
  simp only [get_unified_symbol]
  rw [if_neg]
  rintro (h | h)
  · exact absurd h (by decide)
  · exact absurd h (by decide)

/-- The inner Lighter scan returns `0` for a key no Lighter position
unifies to. -/
theorem findLighterQuantity_not_mem (u : PyString) :
    ∀ lt : List LighterPosition,
      u ∉ lt.map (fun p => get_unified_symbol p.symbol lighterS) →
      findLighterQuantity u lt = 0 := by
  intro lt
  induction lt with
  | nil => intro _; rfl
  | cons p ps ih =>
    intro hu
    have hne : ¬ get_unified_symbol p.symbol lighterS = u := by
      intro he
      exact hu (by rw [List.map_cons]; exact List.mem_cons.mpr (Or.inl he.symm))
    have hu' : u ∉ ps.map (fun p => get_unified_symbol p.symbol lighterS) := by
      intro hm
      exact hu (by rw [List.map_cons]; exact List.mem_cons_of_mem _ hm)
    by_cases h1 : |p.position| = 0
    · simp only [findLighterQuantity, if_pos h1]
      exact ih hu'
    · simp only [findLighterQuantity, if_neg h1, if_neg hne]
      exact ih hu'

/-- With unique unified keys, the inner Lighter scan computes exactly the
Lighter mapping value (a zero-size entry is skipped but also maps to `0`). -/
theorem findLighterQuantity_eq (u : PyString) :
    ∀ lt : List LighterPosition,
      (lt.map (fun p => get_unified_symbol p.symbol lighterS)).Nodup →
      findLighterQuantity u lt = ltQuantity lt u := by
  intro lt
  induction lt with
  | nil => intro _; rfl
  | cons p ps ih =>
    intro hnd
    rw [List.map_cons, List.nodup_cons] at hnd
    by_cases he : get_unified_symbol p.symbol lighterS = u
    · by_cases hz : |p.position| = 0
      · simp only [findLighterQuantity, ltQuantity, if_pos hz, if_pos he]
        rw [findLighterQuantity_not_mem u ps (he ▸ hnd.1),
          abs_eq_zero.mp hz]
        ring
      · simp only [findLighterQuantity, ltQuantity, if_neg hz, if_pos he]
    · simp only [findLighterQuantity, ltQuantity, if_neg he]
      split_ifs with h1
      · exact ih hnd.2
      · exact ih hnd.2

/-- `bpHasUnified` decides membership of a key among the unified Backpack
symbols. -/
theorem bpHasUnified_iff (bp : List BpPosition) (u : PyString) :
    bpHasUnified bp u = true ↔
      u ∈ bp.map (fun b => get_unified_symbol b.symbol backpackS) := by
  rw [bpHasUnified, List.any_eq_true]
  constructor
  · rintro ⟨b, hb, hbe⟩
    exact List.mem_map.mpr ⟨b, hb, by simpa using hbe⟩
  · intro hm
    obtain ⟨b, hb, he⟩ := List.mem_map.mp hm
    exact ⟨b, hb, by simpa using he⟩

/-- A key held by the left part of an appended hedge list is looked up
there. -/
theorem lookupHedge_append_left :
    ∀ (l1 l2 : List HedgeEntry) (k : PyString),
      k ∈ l1.map HedgeEntry.symbol →
      lookupHedge (l1 ++ l2) k = lookupHedge l1 k := by
  intro l1
  induction l1 with
  | nil => intro l2 k hk; cases hk
  | cons e es ih =>
    intro l2 k hk
    by_cases he : e.symbol = k
    · simp only [List.cons_append, lookupHedge, if_pos he]
    · simp only [List.cons_append, lookupHedge, if_neg he]
      rw [List.map_cons] at hk
      rcases List.mem_cons.mp hk with h | h
      · exact absurd h.symm he
      · exact ih l2 k h

/-- A key absent from the left part of an appended hedge list is looked up
in the right part. -/
theorem lookupHedge_append_right :
    ∀ (l1 l2 : List HedgeEntry) (k : PyString),
      k ∉ l1.map HedgeEntry.symbol →
      lookupHedge (l1 ++ l2) k = lookupHedge l2 k := by
  intro l1
  induction l1 with
  | nil => intro l2 k _; rfl
  | cons e es ih =>
    intro l2 k hk
    have he : ¬ e.symbol = k := by
      intro he
      exact hk (by rw [List.map_cons, he]; exact List.mem_cons_self k _)
    simp only [List.cons_append, lookupHedge, if_neg he]
    exact ih l2 k fun hm => hk (by rw [List.map_cons]; exact List.mem_cons_of_mem _ hm)

/-- Looking up a key no entry carries yields `0`. -/
theorem lookupHedge_not_mem :
    ∀ (l : List HedgeEntry) (k : PyString),
      k ∉ l.map HedgeEntry.symbol → lookupHedge l k = 0 := by
  intro l
  induction l with
  | nil => intro k _; rfl
  | cons e es ih =>
    intro k hk
    have he : ¬ e.symbol = k := by
      intro he
      exact hk (by rw [List.map_cons, he]; exact List.mem_cons_self k _)
    simp only [lookupHedge, if_neg he]
    exact ih k fun hm => hk (by rw [List.map_cons]; exact List.mem_cons_of_mem _ hm)

/-- The Backpack mapping of an absent key is `0`. -/
theorem bpQuantity_not_mem :
    ∀ (bp : List BpPosition) (k : PyString),
      k ∉ bp.map (fun b => get_unified_symbol b.symbol backpackS) →
      bpQuantity bp k = 0 := by
  intro bp
  induction bp with
  | nil => intro k _; rfl
  | cons b bs ih =>
    intro k hk
    have he : ¬ get_unified_symbol b.symbol backpackS = k := by
      intro he
      exact hk (by rw [List.map_cons, he]; exact List.mem_cons_self k _)
    simp only [bpQuantity, if_neg he]
    exact ih k fun hm => hk (by rw [List.map_cons]; exact List.mem_cons_of_mem _ hm)

/-- The first loop emits entries exactly under the unified Backpack
symbols. -/
theorem needHedgeFromBp_symbols (bp : List BpPosition) (lt : List LighterPosition) :
    (needHedgeFromBp bp lt).map HedgeEntry.symbol =
      bp.map (fun b => get_unified_symbol b.symbol backpackS) := by
  rw [needHedgeFromBp, List.map_map]
  rfl

/-- Looking up a unified Backpack key in the first loop's output gives
`-netQuantity - lighter_quantity` (first-match semantics on both sides). -/
theorem lookupHedge_fromBp (lt : List LighterPosition) :
    ∀ (bp : List BpPosition) (k : PyString),
      k ∈ bp.map (fun b => get_unified_symbol b.symbol backpackS) →
      lookupHedge (needHedgeFromBp bp lt) k =
        -(bpQuantity bp k) - findLighterQuantity k lt := by
  intro bp
  induction bp with
  | nil => intro k hk; cases hk
  | cons b bs ih =>
    intro k hk
    by_cases he : get_unified_symbol b.symbol backpackS = k
    · simp only [needHedgeFromBp, List.map_cons, lookupHedge, bpQuantity,
        if_pos he, he]
      simp
    · simp only [needHedgeFromBp, List.map_cons, lookupHedge, bpQuantity,
        if_neg he]
      rw [List.map_cons] at hk
      rcases List.mem_cons.mp hk with h | h
      · exact absurd h.symm he
      · exact ih k h

/-- The second loop emits nothing under a key no Lighter position unifies
to (its entry symbols are raw Lighter symbols, which unify to themselves). -/
theorem needHedgeFromLighter_not_mem (bp : List BpPosition) :
    ∀ (ps : List LighterPosition) (k : PyString),
      k ∉ ps.map (fun p => get_unified_symbol p.symbol lighterS) →
      lookupHedge (needHedgeFromLighter bp ps) k = 0 := by
  intro ps k hk
  apply lookupHedge_not_mem
  intro hm
  obtain ⟨e, he_mem, he_sym⟩ := List.mem_map.mp hm
  obtain ⟨q, hq_mem, hq_eq⟩ := List.mem_map.mp he_mem
  subst hq_eq
  apply hk
  refine List.mem_map.mpr ⟨q, List.mem_of_mem_filter hq_mem, ?_⟩
  rw [unify_lighter_id]
  exact he_sym

/-- Looking up a key that only the Lighter side carries in the second
loop's output gives the negated Lighter quantity. -/
theorem lookupHedge_fromLighter (bp : List BpPosition) :
    ∀ lt : List LighterPosition,
      (lt.map (fun p => get_unified_symbol p.symbol lighterS)).Nodup →
      ∀ k, k ∈ lt.map (fun p => get_unified_symbol p.symbol lighterS) →
        k ∉ bp.map (fun b => get_unified_symbol b.symbol backpackS) →
        lookupHedge (needHedgeFromLighter bp lt) k = -(ltQuantity lt k) := by
  intro lt
  induction lt with
  | nil => intro _ k hk _; cases hk
  | cons p ps ih =>
    intro hnd k hk hkbp
    rw [List.map_cons, List.nodup_cons] at hnd
    have hid := unify_lighter_id p.symbol
    by_cases he : get_unified_symbol p.symbol lighterS = k
    · have hpk : p.symbol = k := hid ▸ he
      by_cases hz : p.position * (p.sign : ℚ) = 0
      · have hcond : ¬ (¬ |p.position * (p.sign : ℚ)| = 0 ∧
            ¬ bpHasUnified bp (get_unified_symbol p.symbol lighterS) = true) := by
          intro hc
          exact hc.1 (abs_eq_zero.mpr hz)
        have hcondb : ¬ (decide (¬ |p.position * (p.sign : ℚ)| = 0 ∧
            ¬ bpHasUnified bp (get_unified_symbol p.symbol lighterS) = true)
              = true) := by
          simp only [decide_eq_true_eq]
          exact hcond
        have hfilter : needHedgeFromLighter bp (p :: ps) =
            needHedgeFromLighter bp ps := by
          simp only [needHedgeFromLighter, List.filter_cons, if_neg hcondb]
        rw [hfilter, needHedgeFromLighter_not_mem bp ps k (he ▸ hnd.1)]
        simp only [ltQuantity, if_pos he, hz]
        norm_num
      · have hcond : ¬ |p.position * (p.sign : ℚ)| = 0 ∧
            ¬ bpHasUnified bp (get_unified_symbol p.symbol lighterS) = true := by
          refine ⟨fun hzz => hz (abs_eq_zero.mp hzz), fun hb => ?_⟩
          rw [he] at hb
          exact hkbp ((bpHasUnified_iff bp k).mp hb)
        have hcondb : decide (¬ |p.position * (p.sign : ℚ)| = 0 ∧
            ¬ bpHasUnified bp (get_unified_symbol p.symbol lighterS) = true)
              = true := by
          simp only [decide_eq_true_eq]
          exact hcond
        simp only [needHedgeFromLighter, List.filter_cons, if_pos hcondb,
          List.map_cons, lookupHedge, if_pos hpk, ltQuantity, if_pos he]
    · have hpk : ¬ p.symbol = k := fun hc => he (hid.trans hc)
      have hk' : k ∈ ps.map (fun q => get_unified_symbol q.symbol lighterS) := by
        rw [List.map_cons] at hk
        rcases List.mem_cons.mp hk with h | h
        · exact absurd h.symm he
        · exact h
      simp only [needHedgeFromLighter, List.filter_cons, ltQuantity, if_neg he]
      split_ifs with hcond
      · simp only [List.map_cons, lookupHedge, if_neg hpk]
        exact ih hnd.2 k hk' hkbp
      · exact ih hnd.2 k hk' hkbp

/-- C3: for any canonical key present on either venue (with the Lighter
mapping's unified keys unique, as a mapping's keys are), the delta the
emitted hedge list assigns to that key is
`-(primary quantity) - secondary quantity`, a missing entry counting as
zero; keys only the secondary venue holds get `-(secondary quantity)`. -/
theorem get_need_hedge_positions_delta (bp : List BpPosition)
    (lt : List LighterPosition) (k : PyString)
    (hlt : (lt.map (fun p => get_unified_symbol p.symbol lighterS)).Nodup)
    (hk : k ∈ bp.map (fun b => get_unified_symbol b.symbol backpackS) ∨
          k ∈ lt.map (fun p => get_unified_symbol p.symbol lighterS)) :
    lookupHedge (get_need_hedge_positions bp lt) k =
      -(bpQuantity bp k) - ltQuantity lt k := by
  by_cases hinb : k ∈ bp.map (fun b => get_unified_symbol b.symbol backpackS)
  · simp only [get_need_hedge_positions]
    rw [lookupHedge_append_left _ _ k
        (by rw [needHedgeFromBp_symbols]; exact hinb),
      lookupHedge_fromBp lt bp k hinb, findLighterQuantity_eq k lt hlt]
  · have hinl : k ∈ lt.map (fun p => get_unified_symbol p.symbol lighterS) :=
      hk.resolve_left hinb
    simp only [get_need_hedge_positions]
    rw [lookupHedge_append_right _ _ k
        (by rw [needHedgeFromBp_symbols]; exact hinb),
      lookupHedge_fromLighter bp lt hlt k hinl hinb,
      bpQuantity_not_mem bp k hinb]
    ring

/-- C3 witness: the claim's two examples — primary `{ETH: -0.5}` with
secondary `{ETH: +0.2}` (delta `0.3`), and an asset only the secondary
venue holds, primary `{}` with secondary `{SOL: -1.0}` (delta `1.0`). -/
theorem get_need_hedge_positions_delta_witness :
    lookupHedge (get_need_hedge_positions [⟨pyStr "ETH", -(1 / 2)⟩]
        [⟨pyStr "ETH", 2 / 10, 1⟩]) (pyStr "ETH") =
      -(bpQuantity [⟨pyStr "ETH", -(1 / 2)⟩] (pyStr "ETH")) -
        ltQuantity [⟨pyStr "ETH", 2 / 10, 1⟩] (pyStr "ETH") ∧
    lookupHedge (get_need_hedge_positions [] [⟨pyStr "SOL", 1, -1⟩])
        (pyStr "SOL") =
      -(bpQuantity [] (pyStr "SOL")) -
        ltQuantity [⟨pyStr "SOL", 1, -1⟩] (pyStr "SOL") :=
  ⟨get_need_hedge_positions_delta _ _ _ (by decide) (Or.inl (by decide)),
   get_need_hedge_positions_delta _ _ _ (by decide) (Or.inr (by decide))⟩
